import Mathlib

/-!
Shallow embedding of `centipede/symbol_table.cc` (the Centipede symbol table:
LLVM-symbolizer output parsing, string interning, per-DSO symbolization and
the parallel dispatcher's merge/fallback logic).

Modelling conventions:
* C++ `std::string` / `std::string_view` values are Lean `String`s; the
  interner (`std::set<std::string> table_`) is modelled as an
  insertion-ordered duplicate-free `List String` (only membership and the
  stored values are observable).
* Streams are modelled as the list of lines `std::getline` would deliver
  (`getlineAll` turns a file's text into that list).
* A `CHECK`-failure (abort of the process) is modelled as `Option.none`.
* The external symbolizer subprocess is an oracle (`DriverOutcome`): its exit
  code and the text it left in the output file.
* `PCInfo` is modelled by its `pc` address (a `Nat`); the `flags` word plays
  no role in this translation unit.
-/

namespace centipede

/-- Splits a character list on a separator, keeping empty pieces; always
returns at least one piece.  This is the behaviour of `absl::StrSplit(s, c)`
(and of repeated `std::getline`) on the underlying character sequence. -/
def splitOnChar (sep : Char) : List Char → List (List Char)
  | [] => [[]]
  | c :: rest =>
    let r := splitOnChar sep rest
    if c = sep then [] :: r
    else (c :: r.headD []) :: r.tail

/-- The list of lines `std::getline` yields from a stream holding `s`:
split on newline, with the empty piece after a final newline not producing an
extra (failed) line. -/
def getlineAll (s : String) : List String :=
  if s = "" then []
  else
    (if (splitOnChar '\n' s.toList).getLast? = some [] then
      (splitOnChar '\n' s.toList).dropLast
    else splitOnChar '\n' s.toList).map List.asString

/-- Big-endian decimal digits, structurally recursive on a fuel bound (any
fuel above the value gives the digits; see `natDigits`). -/
def natDigitsAux : Nat → Nat → List Char
  | 0, _ => []
  | fuel + 1, n =>
    if n < 10 then [Nat.digitChar n]
    else natDigitsAux fuel (n / 10) ++ [Nat.digitChar (n % 10)]

/-- Big-endian decimal digits of a natural number, as characters.  Models the
decimal rendering `std::ostream` / `absl::StrCat` give to a non-negative
integer. -/
def natDigits (n : Nat) : List Char := natDigitsAux (n + 1) n

/-- Decimal rendering of a C++ `int` value (sign and digits). -/
def intRepr (i : Int) : String :=
  if i < 0 then ('-' :: natDigits i.natAbs).asString
  else (natDigits i.toNat).asString

/-- Numeric value of a decimal digit character, `none` for non-digits. -/
def digitVal (c : Char) : Option Nat :=
  if '0' ≤ c ∧ c ≤ '9' then some (c.toNat - '0'.toNat) else none

/-- Accumulating decimal parse of a digit run; fails on any non-digit. -/
def parseDigitsAux : List Char → Nat → Option Nat
  | [], acc => some acc
  | c :: rest, acc =>
    match digitVal c with
    | none => none
    | some d => parseDigitsAux rest (acc * 10 + d)

/-- Decimal parse of a non-empty digit run. -/
def parseDigits (l : List Char) : Option Nat :=
  match l with
  | [] => none
  | _ => parseDigitsAux l 0

/-- Model of `absl::SimpleAtoi<int>`: an optional sign followed by decimal
digits, rejected unless the value fits a 32-bit `int`. -/
def SimpleAtoi (s : String) : Option Int :=
  match s.toList with
  | [] => none
  | c :: rest =>
    if c = '-' then
      (parseDigits rest).bind fun n =>
        if (n : Int) ≤ 2 ^ 31 then some (-(n : Int)) else none
    else if c = '+' then
      (parseDigits rest).bind fun n =>
        if (n : Int) < 2 ^ 31 then some (n : Int) else none
    else
      (parseDigits (c :: rest)).bind fun n =>
        if (n : Int) < 2 ^ 31 then some (n : Int) else none

/-- `absl::StripPrefix`: drop `pre` from the front of `s` when present. -/
def stripOnePrefix (pre s : List Char) : List Char :=
  if pre.isPrefixOf s then s.drop pre.length else s

/-- The `file_prefixes_to_remove` loop of `ReadFromLLVMSymbolizer`: strip
`"/proc/self/cwd/"`, then `"./"`, each at most once, in that order. -/
def stripFilePrefixes (file : String) : String :=
  (stripOnePrefix "./".toList
    (stripOnePrefix "/proc/self/cwd/".toList file.toList)).asString

/-- Modelled from the spec: `SymbolTable::Entry` is declared in
`symbol_table.h`, which is not part of the shown sources.  The spec's data
model gives one resolved symbol per PC: interned `function` and `file` texts
and integer `line` / `column` (`-1` when absent, `0` as the explicit unknown
marker). -/
structure Entry where
  func : String
  file : String
  line : Int
  col : Int
deriving DecidableEq, Repr

/-- Modelled from the spec: the unknown sentinel entry
(function `"?"`, file `"?"`, line `0`, column `0`) that `SetAllToUnknown`'s
`entry = {"?", "?"}` assignment produces (the `Entry` field defaults live in
the missing `symbol_table.h`; the spec fixes the sentinel as
`("?", "?", 0, 0)`). -/
def unknownEntry : Entry := ⟨"?", "?", 0, 0⟩

/-- The symbol table: the ordered entry list `entries_` plus the interner
`table_` (`std::set<std::string>`, modelled as an insertion-ordered list of
the stored strings). -/
structure SymbolTable where
  entries_ : List Entry
  table_ : List String
deriving DecidableEq, Repr

/-- A default-constructed `SymbolTable`. -/
def emptySymbolTable : SymbolTable := ⟨[], []⟩

/-- `SymbolTable::GetOrInsert`: `return *table_.insert(std::string{str}).first;`
— the stored string of equal content, inserting only if absent.  The returned
value together with the updated store models the reference into the set. -/
def GetOrInsert (table_ : List String) (str : String) : String × List String :=
  if str ∈ table_ then (str, table_) else (str, table_ ++ [str])

/-- `SymbolTable::AddEntryInternal`: intern `func` and `file`, append the
entry. -/
def SymbolTable.AddEntryInternal (st : SymbolTable) (func file : String)
    (line col : Int) : SymbolTable :=
  let f := GetOrInsert st.table_ func
  let g := GetOrInsert f.2 file
  ⟨st.entries_ ++ [⟨f.1, g.1, line, col⟩], g.2⟩

/-- `SymbolTable::AddEntry`: a location containing `"?"` is stored whole with
line = col = 0; otherwise the location is split on `':'` into 1–3 parts
(`CHECK`s, i.e. `none`, outside that range) and `line` / `col` are parsed
with `SimpleAtoi` (`CHECK`, i.e. `none`, on parse failure). -/
def SymbolTable.AddEntry (st : SymbolTable) (func file_line_col : String) :
    Option SymbolTable :=
  if '?' ∈ file_line_col.toList then
    some (st.AddEntryInternal func file_line_col 0 0)
  else
    let parts := (splitOnChar ':' file_line_col.toList).map List.asString
    if 3 < parts.length then none
    else if parts.length < 1 then none
    else
      (if 2 ≤ parts.length then SimpleAtoi (parts.getD 1 "")
        else some (-1)).bind fun line =>
      (if parts.length = 3 then SimpleAtoi (parts.getD 2 "")
        else some (-1)).map fun col =>
        st.AddEntryInternal func (parts.getD 0 "") line col

/-- `SymbolTable::ReadFromLLVMSymbolizer`: consume three lines per record
(function, location, blank separator); a record with fewer than three lines
left ends the loop without adding anything (`if (!in) break`); a non-blank
third line fails the `CHECK(empty.empty())`. -/
def SymbolTable.ReadFromLLVMSymbolizer (st : SymbolTable) :
    List String → Option SymbolTable
  | [] => some st
  | [_] => some st
  | [_, _] => some st
  | func :: file :: empty :: rest =>
    if empty = "" then
      match st.AddEntry func (stripFilePrefixes file) with
      | none => none
      | some st' => st'.ReadFromLLVMSymbolizer rest
    else none

/-- Modelled from the spec: `Entry::file_line_col()` is declared in the
missing `symbol_table.h`.  Per the spec's serialization rule the location
line is `file:line:column` with `line` / `column` written verbatim (`"?"`
forms are not reconstructed). -/
def Entry.file_line_col (e : Entry) : String :=
  e.file ++ ":" ++ intRepr e.line ++ ":" ++ intRepr e.col

/-- `SymbolTable::WriteToLLVMSymbolizer`: one three-line record per entry, in
table order. -/
def SymbolTable.WriteToLLVMSymbolizer (st : SymbolTable) : String :=
  String.join (st.entries_.map fun e =>
    e.func ++ "\n" ++ e.file_line_col ++ "\n" ++ "\n")

/-- `SymbolTable::SetAllToUnknown`: resize to `size`, set every entry to the
unknown sentinel, clear the interner. -/
def SymbolTable.SetAllToUnknown (_st : SymbolTable) (size : Nat) :
    SymbolTable :=
  ⟨List.replicate size unknownEntry, []⟩

/-- `SymbolTable::AddEntries`: append every entry of `other` in order,
re-interning its strings into this table's interner. -/
def SymbolTable.AddEntries (st other : SymbolTable) : SymbolTable :=
  other.entries_.foldl
    (fun acc e => acc.AddEntryInternal e.func e.file e.line e.col) st

/-- The observable outcome of one symbolizer subprocess invocation: its exit
code and the text it wrote to the output file.  The scratch files and the
command line are side effects outside the table's state. -/
structure DriverOutcome where
  exit_code : Int
  output : String

/-- `SymbolTable::GetSymbolsFromOneDso` (result-relevant part): on a non-zero
exit code, return with the table unchanged; otherwise parse the symbolizer's
output into the table.  The `added_size != pc_infos.size()` comparison only
logs an error — the parsed entries are kept either way. -/
def SymbolTable.GetSymbolsFromOneDso (st : SymbolTable)
    (_pc_infos : List Nat) (outcome : DriverOutcome) : Option SymbolTable :=
  if outcome.exit_code ≠ 0 then some st
  else st.ReadFromLLVMSymbolizer (getlineAll outcome.output)

/-- One element of the `DsoTable`: a DSO path and its count of instrumented
PCs. -/
structure DsoInfo where
  path : String
  num_instrumented_pcs : Nat

/-- The per-DSO loop of `GetSymbolsFromBinary`: for each DSO, `CHECK_LE` the
slice bound (`none` on violation), run the driver on a fresh local table over
the DSO's PC span, and collect the local tables in DSO order together with
the final `pc_idx_begin`. -/
def dsoTables (pc_table : List Nat) (oracle : Nat → DriverOutcome) :
    List DsoInfo → Nat → Nat → Option (List SymbolTable × Nat)
  | [], _, pc_idx_begin => some ([], pc_idx_begin)
  | dso :: rest, dso_id, pc_idx_begin =>
    if pc_idx_begin + dso.num_instrumented_pcs ≤ pc_table.length then
      match emptySymbolTable.GetSymbolsFromOneDso
          ((pc_table.drop pc_idx_begin).take dso.num_instrumented_pcs)
          (oracle dso_id) with
      | none => none
      | some t =>
        match dsoTables pc_table oracle rest (dso_id + 1)
            (pc_idx_begin + dso.num_instrumented_pcs) with
        | none => none
        | some (ts, idx) => some (t :: ts, idx)
    else none

/-- `SymbolTable::GetSymbolsFromBinary`: with no usable symbolizer (empty
path or `"/dev/null"`), set everything to unknown; otherwise run one driver
per DSO (the subprocess behaviour supplied by `oracle`), merge the local
tables in DSO order, `CHECK_EQ` that the DSO counts consumed the whole PC
table, and fall back to all-unknown when the merged size does not match the
PC table's size. -/
def SymbolTable.GetSymbolsFromBinary (st : SymbolTable) (pc_table : List Nat)
    (dso_table : List DsoInfo) (symbolizer_path : String)
    (oracle : Nat → DriverOutcome) : Option SymbolTable :=
  if symbolizer_path = "" ∨ symbolizer_path = "/dev/null" then
    some (st.SetAllToUnknown pc_table.length)
  else
    match dsoTables pc_table oracle dso_table 0 0 with
    | none => none
    | some (tables, pc_idx_begin) =>
      if pc_idx_begin = pc_table.length then
        if (tables.foldl SymbolTable.AddEntries st).entries_.length
            = pc_table.length then
          some (tables.foldl SymbolTable.AddEntries st)
        else
          some ((tables.foldl SymbolTable.AddEntries st).SetAllToUnknown
            pc_table.length)
      else none

/-! ### Basic lemmas about the interner and entry insertion -/

theorem GetOrInsert_fst (t : List String) (s : String) :
    (GetOrInsert t s).1 = s := by
  unfold GetOrInsert; split <;> rfl

theorem GetOrInsert_snd (t : List String) (s : String) :
    (GetOrInsert t s).2 = if s ∈ t then t else t ++ [s] := by
  unfold GetOrInsert; split <;> simp_all

theorem GetOrInsert_of_mem {t : List String} {s : String} (h : s ∈ t) :
    GetOrInsert t s = (s, t) := by
  unfold GetOrInsert; simp [h]

theorem self_mem_GetOrInsert (t : List String) (s : String) :
    s ∈ (GetOrInsert t s).2 := by
  rw [GetOrInsert_snd]; split
  · assumption
  · simp

theorem mem_GetOrInsert_of_mem (t : List String) (s x : String) (h : x ∈ t) :
    x ∈ (GetOrInsert t s).2 := by
  rw [GetOrInsert_snd]; split
  · exact h
  · exact List.mem_append_left _ h

theorem AddEntryInternal_entries (st : SymbolTable) (f fi : String)
    (l c : Int) :
    (st.AddEntryInternal f fi l c).entries_ = st.entries_ ++ [⟨f, fi, l, c⟩] := by
  simp [SymbolTable.AddEntryInternal, GetOrInsert_fst]

theorem AddEntryInternal_table (st : SymbolTable) (f fi : String)
    (l c : Int) :
    (st.AddEntryInternal f fi l c).table_ =
      (GetOrInsert (GetOrInsert st.table_ f).2 fi).2 := by
  simp [SymbolTable.AddEntryInternal]

theorem foldl_AddEntryInternal_entries (es : List Entry) (st : SymbolTable) :
    (es.foldl (fun acc e => acc.AddEntryInternal e.func e.file e.line e.col)
        st).entries_ = st.entries_ ++ es := by
  induction es generalizing st with
  | nil => simp
  | cons e es ih => simp [ih, AddEntryInternal_entries]

theorem splitOnChar_ne_nil (sep : Char) (l : List Char) :
    splitOnChar sep l ≠ [] := by
  cases l with
  | nil => simp [splitOnChar]
  | cons c rest =>
    simp only [splitOnChar]
    split <;> simp

/-- One step of the reading loop on a complete record. -/
theorem ReadFromLLVMSymbolizer_cons (st : SymbolTable) (f l : String)
    (rest : List String) :
    st.ReadFromLLVMSymbolizer (f :: l :: "" :: rest) =
      (st.AddEntry f (stripFilePrefixes l)).bind
        fun st' => st'.ReadFromLLVMSymbolizer rest := by
  cases h : st.AddEntry f (stripFilePrefixes l) with
  | none => simp [SymbolTable.ReadFromLLVMSymbolizer, h]
  | some st' => simp [SymbolTable.ReadFromLLVMSymbolizer, h]

/-! ### Claim theorems -/

/-- C7: merging table `B` into table `A` with `AddEntries` yields exactly
`A`'s entries followed by `B`'s entries, in `B`'s internal order, the merged
entries value-equal to `B`'s (their strings re-interned into `A`'s
interner). -/
theorem C7_merge_order (A B : SymbolTable) :
    (A.AddEntries B).entries_ = A.entries_ ++ B.entries_ :=
  foldl_AddEntryInternal_entries B.entries_ A

/-- C9: the interner returns the stored string of equal byte content, inserts
only if absent, a repeated lookup returns the same stored string without
growing the store, and adding two entries with byte-equal function and file
texts leaves the interner unchanged by the second insertion. -/
theorem C9_interning (t : List String) (s : String) (st : SymbolTable)
    (f fi : String) (l c l' c' : Int) :
    (GetOrInsert t s).1 = s ∧
    (GetOrInsert t s).2 = (if s ∈ t then t else t ++ [s]) ∧
    GetOrInsert (GetOrInsert t s).2 s = ((GetOrInsert t s).1, (GetOrInsert t s).2) ∧
    ((st.AddEntryInternal f fi l c).AddEntryInternal f fi l' c').table_ =
      (st.AddEntryInternal f fi l c).table_ := by
  refine ⟨GetOrInsert_fst t s, GetOrInsert_snd t s, ?_, ?_⟩
  · rw [GetOrInsert_of_mem (self_mem_GetOrInsert t s), GetOrInsert_fst]
  · rw [AddEntryInternal_table, AddEntryInternal_table]
    have hf : f ∈ (GetOrInsert (GetOrInsert st.table_ f).2 fi).2 :=
      mem_GetOrInsert_of_mem _ _ _ (self_mem_GetOrInsert st.table_ f)
    have hfi : fi ∈ (GetOrInsert (GetOrInsert st.table_ f).2 fi).2 :=
      self_mem_GetOrInsert _ fi
    simp [GetOrInsert_of_mem hf, GetOrInsert_of_mem hfi]

/-- C10: splitting any location on `':'` yields at least one part, so the
fewer-than-one-part `CHECK` in `AddEntry` is unreachable; in particular an
empty location is accepted and appends an entry with empty file and
line = col = -1. -/
theorem C10_split_nonempty (s : List Char) (st : SymbolTable) (func : String) :
    1 ≤ (splitOnChar ':' s).length ∧
    st.AddEntry func "" = some (st.AddEntryInternal func "" (-1) (-1)) ∧
    (st.AddEntryInternal func "" (-1) (-1)).entries_ =
      st.entries_ ++ [⟨func, "", -1, -1⟩] := by
  refine ⟨?_, rfl, AddEntryInternal_entries st func "" (-1) (-1)⟩
  cases h : splitOnChar ':' s with
  | nil => exact absurd h (splitOnChar_ne_nil ':' s)
  | cons a as => simp

/-- C8: the reader consumes complete 3-line records; a trailing incomplete
record (fewer than 3 remaining lines) is silently dropped, adding no entry
and raising no error. -/
theorem C8_trailing_record (st : SymbolTable) (recs : List (String × String))
    (tail : List String) (h : tail.length ≤ 2) :
    st.ReadFromLLVMSymbolizer
        ((recs.flatMap fun r => [r.1, r.2, ""]) ++ tail) =
      st.ReadFromLLVMSymbolizer (recs.flatMap fun r => [r.1, r.2, ""]) := by
  induction recs generalizing st with
  | nil =>
    simp only [List.flatMap_nil, List.nil_append]
    match tail, h with
    | [], _ => rfl
    | [_], _ => rfl
    | [_, _], _ => rfl
  | cons r recs ih =>
    simp only [List.flatMap_cons, List.cons_append, List.append_assoc]
    rw [ReadFromLLVMSymbolizer_cons, ReadFromLLVMSymbolizer_cons]
    cases hA : st.AddEntry r.1 (stripFilePrefixes r.2) with
    | none => rfl
    | some st' => simpa using ih st'

/-- C8 witness: a complete record followed by a single dangling line parses
exactly as the complete record alone. -/
theorem C8_trailing_record_witness :
    emptySymbolTable.ReadFromLLVMSymbolizer
        ["foo", "/src/a.c:10:3", "", "bar"] =
      emptySymbolTable.ReadFromLLVMSymbolizer ["foo", "/src/a.c:10:3", ""] := by
  have h := C8_trailing_record emptySymbolTable [("foo", "/src/a.c:10:3")]
    ["bar"] (by decide)
  simpa using h

/-- C4: with an empty or `"/dev/null"` symbolizer path, no subprocess work is
modelled at all and the result is the all-unknown table of the PC table's
size. -/
theorem C4_degraded_mode (st : SymbolTable) (pc_table : List Nat)
    (dso_table : List DsoInfo) (oracle : Nat → DriverOutcome) (path : String)
    (h : path = "" ∨ path = "/dev/null") :
    st.GetSymbolsFromBinary pc_table dso_table path oracle =
      some ⟨List.replicate pc_table.length unknownEntry, []⟩ := by
  unfold SymbolTable.GetSymbolsFromBinary
  rw [if_pos h]
  rfl

/-- C4 witness: the degraded mode at a concrete call. -/
theorem C4_degraded_mode_witness :
    emptySymbolTable.GetSymbolsFromBinary [1, 2] [] "/dev/null"
        (fun _ => ⟨1, ""⟩) =
      some ⟨List.replicate 2 unknownEntry, []⟩ := by
  have h := C4_degraded_mode emptySymbolTable [1, 2] [] (fun _ => ⟨1, ""⟩)
    "/dev/null" (Or.inr rfl)
  simpa using h

/-- C2: whenever `GetSymbolsFromBinary` returns a table (the DSO counts
partitioning the PC table), that table's size equals the PC table's size,
whatever each per-DSO symbolization did. -/
theorem C2_size_invariant (st : SymbolTable) (pc_table : List Nat)
    (dso_table : List DsoInfo) (path : String) (oracle : Nat → DriverOutcome)
    (result : SymbolTable)
    (_hsum : (dso_table.map DsoInfo.num_instrumented_pcs).sum = pc_table.length)
    (h : st.GetSymbolsFromBinary pc_table dso_table path oracle = some result) :
    result.entries_.length = pc_table.length := by
  unfold SymbolTable.GetSymbolsFromBinary at h
  split at h
  · cases h
    simp [SymbolTable.SetAllToUnknown]
  · split at h
    · exact absurd h (by simp)
    · split at h
      · split at h
        · cases h; assumption
        · cases h; simp [SymbolTable.SetAllToUnknown]
      · exact absurd h (by simp)

/-- C2 witness: a concrete run (degraded path) of size 1. -/
theorem C2_size_invariant_witness :
    (⟨List.replicate 1 unknownEntry, []⟩ : SymbolTable).entries_.length =
      ([1] : List Nat).length :=
  C2_size_invariant emptySymbolTable [1] [⟨"a.so", 1⟩] "" (fun _ => ⟨1, ""⟩)
    ⟨List.replicate 1 unknownEntry, []⟩ (by decide) rfl

/-- C3: when the per-DSO drivers ran (symbolizer configured, slice bounds
respected, counts consuming the whole PC table) but the merged table's size
differs from the PC table's size, all partial results are discarded and the
result is the all-unknown table of the PC table's size. -/
theorem C3_mismatch_fallback (st : SymbolTable) (pc_table : List Nat)
    (dso_table : List DsoInfo) (path : String) (oracle : Nat → DriverOutcome)
    (tables : List SymbolTable)
    (h1 : ¬(path = "" ∨ path = "/dev/null"))
    (h2 : dsoTables pc_table oracle dso_table 0 0 =
      some (tables, pc_table.length))
    (h3 : (tables.foldl SymbolTable.AddEntries st).entries_.length ≠
      pc_table.length) :
    st.GetSymbolsFromBinary pc_table dso_table path oracle =
      some ⟨List.replicate pc_table.length unknownEntry, []⟩ := by
  unfold SymbolTable.GetSymbolsFromBinary
  rw [if_neg h1, h2]
  simp [h3, SymbolTable.SetAllToUnknown]

/-- C3 witness — the spec's concrete scenario: two DSOs of 3 PCs each, the
first driver's symbolizer output holding only 2 records; the final table is 6
unknown entries, never 2 resolved plus 4 unknown. -/
theorem C3_mismatch_fallback_witness :
    emptySymbolTable.GetSymbolsFromBinary [1, 2, 3, 4, 5, 6]
        [⟨"a.so", 3⟩, ⟨"b.so", 3⟩] "llvm-symbolizer"
        (fun i => if i = 0 then ⟨0, "f1\n/a.c:1:2\n\nf2\n/b.c:3:4\n\n"⟩
          else ⟨0, "g1\n/c.c:1:2\n\ng2\n/d.c:3:4\n\ng3\n/e.c:5:6\n\n"⟩) =
      some ⟨List.replicate ([1, 2, 3, 4, 5, 6] : List Nat).length unknownEntry,
        []⟩ :=
  C3_mismatch_fallback emptySymbolTable [1, 2, 3, 4, 5, 6]
    [⟨"a.so", 3⟩, ⟨"b.so", 3⟩] "llvm-symbolizer"
    (fun i => if i = 0 then ⟨0, "f1\n/a.c:1:2\n\nf2\n/b.c:3:4\n\n"⟩
      else ⟨0, "g1\n/c.c:1:2\n\ng2\n/d.c:3:4\n\ng3\n/e.c:5:6\n\n"⟩)
    [⟨[⟨"f1", "/a.c", 1, 2⟩, ⟨"f2", "/b.c", 3, 4⟩],
        ["f1", "/a.c", "f2", "/b.c"]⟩,
      ⟨[⟨"g1", "/c.c", 1, 2⟩, ⟨"g2", "/d.c", 3, 4⟩, ⟨"g3", "/e.c", 5, 6⟩],
        ["g1", "/c.c", "g2", "/d.c", "g3", "/e.c"]⟩]
    (by decide) (by rfl) (by decide)

/-- C5, counterexample to the claim as stated: a driver invocation asked to
symbolize 3 PCs whose subprocess exits 0 but emits only 2 records leaves the
2 parsed entries in the local table — the table does gain entries even though
the count does not match the request. -/
theorem C5_driver_counterexample :
    emptySymbolTable.GetSymbolsFromOneDso [10, 20, 30]
        ⟨0, "f1\n/a.c:1:2\n\nf2\n/b.c:3:4\n\n"⟩ =
      some ⟨[⟨"f1", "/a.c", 1, 2⟩, ⟨"f2", "/b.c", 3, 4⟩],
        ["f1", "/a.c", "f2", "/b.c"]⟩ ∧
    emptySymbolTable.GetSymbolsFromOneDso [10, 20, 30]
        ⟨0, "f1\n/a.c:1:2\n\nf2\n/b.c:3:4\n\n"⟩ ≠ some emptySymbolTable :=
  ⟨rfl, by decide⟩

/-- C5, amended: on a non-zero subprocess exit the local table gains no
entries; on exit 0 the parsed output is kept in the local table regardless of
whether its entry count matches the request (the mismatch only logs an
error); neither condition is fatal. -/
theorem C5_driver_amended (st : SymbolTable) (pcs : List Nat)
    (o : DriverOutcome) (out : String) (h : o.exit_code ≠ 0) :
    st.GetSymbolsFromOneDso pcs o = some st ∧
    st.GetSymbolsFromOneDso pcs ⟨0, out⟩ =
      st.ReadFromLLVMSymbolizer (getlineAll out) := by
  constructor
  · unfold SymbolTable.GetSymbolsFromOneDso
    rw [if_pos h]
  · rfl

/-- C5 witness: the amended statement at a concrete failing exit code and a
concrete successful parse. -/
theorem C5_driver_amended_witness :
    emptySymbolTable.GetSymbolsFromOneDso [10, 20, 30]
        (⟨1, ""⟩ : DriverOutcome) = some emptySymbolTable ∧
    emptySymbolTable.GetSymbolsFromOneDso [10, 20, 30]
        ⟨0, "f1\n/a.c:1:2\n\nf2\n/b.c:3:4\n\n"⟩ =
      emptySymbolTable.ReadFromLLVMSymbolizer
        (getlineAll "f1\n/a.c:1:2\n\nf2\n/b.c:3:4\n\n") :=
  C5_driver_amended emptySymbolTable [10, 20, 30] ⟨1, ""⟩
    "f1\n/a.c:1:2\n\nf2\n/b.c:3:4\n\n" (by decide)

/-- C1, counterexample to the claim as stated: parsing the two records
`foo | /src/a.c:10:3` and `bar | /src/b.c:?` does not record
`{bar, /src/b.c, 0, 0}` — the file field keeps the entire location string
`"/src/b.c:?"`, not just its path portion. -/
theorem C1_wildcard_counterexample :
    (emptySymbolTable.ReadFromLLVMSymbolizer
          (getlineAll "foo\n/src/a.c:10:3\n\nbar\n/src/b.c:?\n\n")).map
        SymbolTable.entries_ ≠
      some [⟨"foo", "/src/a.c", 10, 3⟩, ⟨"bar", "/src/b.c", 0, 0⟩] ∧
    (emptySymbolTable.ReadFromLLVMSymbolizer
          (getlineAll "foo\n/src/a.c:10:3\n\nbar\n/src/b.c:?\n\n")).map
        SymbolTable.entries_ =
      some [⟨"foo", "/src/a.c", 10, 3⟩, ⟨"bar", "/src/b.c:?", 0, 0⟩] :=
  ⟨by decide, rfl⟩

/-- C1, amended: a location containing `"?"` is recorded whole as the file
field with line = col = 0 and no numeric parsing; the concrete record pair
parses to `{foo, /src/a.c, 10, 3}` and `{bar, "/src/b.c:?", 0, 0}`. -/
theorem C1_wildcard_amended (st : SymbolTable) (func loc : String)
    (h : '?' ∈ loc.toList) :
    st.AddEntry func loc = some (st.AddEntryInternal func loc 0 0) ∧
    emptySymbolTable.ReadFromLLVMSymbolizer
        (getlineAll "foo\n/src/a.c:10:3\n\nbar\n/src/b.c:?\n\n") =
      some ⟨[⟨"foo", "/src/a.c", 10, 3⟩, ⟨"bar", "/src/b.c:?", 0, 0⟩],
        ["foo", "/src/a.c", "bar", "/src/b.c:?"]⟩ := by
  refine ⟨?_, rfl⟩
  unfold SymbolTable.AddEntry
  rw [if_pos h]

/-- C1 witness: the amended wildcard rule applied to `"/src/b.c:?"`. -/
theorem C1_wildcard_amended_witness :
    emptySymbolTable.AddEntry "bar" "/src/b.c:?" =
      some (emptySymbolTable.AddEntryInternal "bar" "/src/b.c:?" 0 0) ∧
    emptySymbolTable.ReadFromLLVMSymbolizer
        (getlineAll "foo\n/src/a.c:10:3\n\nbar\n/src/b.c:?\n\n") =
      some ⟨[⟨"foo", "/src/a.c", 10, 3⟩, ⟨"bar", "/src/b.c:?", 0, 0⟩],
        ["foo", "/src/a.c", "bar", "/src/b.c:?"]⟩ :=
  C1_wildcard_amended emptySymbolTable "bar" "/src/b.c:?" (by decide)


/-! ### Lemmas for the write/read round trip (C6) -/


theorem splitOnChar_of_not_mem {sep : Char} {l : List Char} (h : sep ∉ l) :
    splitOnChar sep l = [l] := by
  induction l with
  | nil => rfl
  | cons c rest ih =>
    simp only [List.mem_cons, not_or] at h
    simp [splitOnChar, ih h.2, Ne.symm h.1]

theorem splitOnChar_append_cons (sep : Char) {xs : List Char}
    (ys : List Char) (h : sep ∉ xs) :
    splitOnChar sep (xs ++ sep :: ys) = xs :: splitOnChar sep ys := by
  induction xs with
  | nil => simp [splitOnChar]
  | cons c rest ih =>
    simp only [List.mem_cons, not_or] at h
    simp [splitOnChar, ih h.2, Ne.symm h.1]

theorem natDigitsAux_congr (n : Nat) : ∀ f1 f2 : Nat, n < f1 → n < f2 →
    natDigitsAux f1 n = natDigitsAux f2 n := by
  induction n using Nat.strong_induction_on with
  | _ n ih =>
    intro f1 f2 h1 h2
    match f1, f2 with
    | g1 + 1, g2 + 1 =>
      rw [natDigitsAux, natDigitsAux]
      split
      · rfl
      · rw [ih (n / 10) (Nat.div_lt_self (by omega) (by omega)) g1 g2
          (by omega) (by omega)]

theorem natDigits_eq (n : Nat) :
    natDigits n = if n < 10 then [Nat.digitChar n]
      else natDigits (n / 10) ++ [Nat.digitChar (n % 10)] := by
  unfold natDigits
  rw [natDigitsAux]
  split
  · rfl
  · rw [natDigitsAux_congr (n / 10) n (n / 10 + 1)
      (by omega) (by omega)]

theorem natDigits_ne_nil (n : Nat) : natDigits n ≠ [] := by
  rw [natDigits_eq]
  split <;> simp

theorem digitChar_bounds {d : Nat} (h : d < 10) :
    '0' ≤ Nat.digitChar d ∧ Nat.digitChar d ≤ '9' := by
  interval_cases d <;> decide

theorem digitVal_digitChar {d : Nat} (h : d < 10) :
    digitVal (Nat.digitChar d) = some d := by
  interval_cases d <;> decide

theorem natDigits_digit (n : Nat) : ∀ c ∈ natDigits n, '0' ≤ c ∧ c ≤ '9' := by
  induction n using Nat.strong_induction_on with
  | _ n ih =>
    rw [natDigits_eq]
    split
    · intro c hc
      rw [List.mem_singleton] at hc
      subst hc
      exact digitChar_bounds (by omega)
    · intro c hc
      rw [List.mem_append] at hc
      rcases hc with hc | hc
      · exact ih (n / 10) (Nat.div_lt_self (by omega) (by omega)) c hc
      · rw [List.mem_singleton] at hc
        subst hc
        exact digitChar_bounds (Nat.mod_lt _ (by omega))

theorem parseDigitsAux_append (a b : List Char) (acc : Nat) :
    parseDigitsAux (a ++ b) acc =
      (parseDigitsAux a acc).bind fun m => parseDigitsAux b m := by
  induction a generalizing acc with
  | nil => rfl
  | cons c rest ih =>
    simp only [List.cons_append, parseDigitsAux]
    cases digitVal c with
    | none => rfl
    | some d => exact ih _

theorem parseDigitsAux_natDigits (n : Nat) :
    ∀ acc, parseDigitsAux (natDigits n) acc =
      some (acc * 10 ^ (natDigits n).length + n) := by
  induction n using Nat.strong_induction_on with
  | _ n ih =>
    intro acc
    rw [natDigits_eq]
    split
    · simp [parseDigitsAux, digitVal_digitChar (by omega : n < 10)]
    · rw [parseDigitsAux_append,
        ih (n / 10) (Nat.div_lt_self (by omega) (by omega)) acc]
      simp only [Option.some_bind, parseDigitsAux,
        digitVal_digitChar (Nat.mod_lt n (by omega)), List.length_append,
        List.length_singleton]
      rw [pow_succ, ← mul_assoc]
      simp only [Option.some.injEq]
      generalize acc * 10 ^ (natDigits (n / 10)).length = m
      omega

theorem parseDigits_natDigits (n : Nat) : parseDigits (natDigits n) = some n := by
  have h1 := natDigits_ne_nil n
  have h2 := parseDigitsAux_natDigits n 0
  cases h : natDigits n with
  | nil => exact absurd h h1
  | cons c cs =>
    rw [h] at h2
    simpa [parseDigits] using h2


theorem toList_asString (l : List Char) : l.asString.toList = l := rfl

theorem asString_toList (s : String) : s.toList.asString = s := rfl

theorem asString_data (s : String) : s.data.asString = s := rfl

theorem toList_append (s t : String) : (s ++ t).toList = s.toList ++ t.toList := rfl

theorem natDigits_head_not_sign (n : Nat) :
    ∀ c cs, natDigits n = c :: cs → ¬c = '-' ∧ ¬c = '+' := by
  intro c cs h
  have hd := natDigits_digit n c (h ▸ List.mem_cons_self c cs)
  constructor
  · intro hc; subst hc; exact absurd hd (by decide)
  · intro hc; subst hc; exact absurd hd (by decide)

theorem intRepr_chars (i : Int) :
    ∀ c ∈ (intRepr i).toList, c = '-' ∨ ('0' ≤ c ∧ c ≤ '9') := by
  unfold intRepr
  split
  · rw [toList_asString]
    intro c hc
    rcases List.mem_cons.mp hc with h | h
    · exact Or.inl h
    · exact Or.inr (natDigits_digit _ c h)
  · rw [toList_asString]
    intro c hc
    exact Or.inr (natDigits_digit _ c hc)

theorem SimpleAtoi_cons (c : Char) (rest : List Char) :
    SimpleAtoi ((c :: rest).asString) =
      (if c = '-' then
        (parseDigits rest).bind fun n =>
          if (n : Int) ≤ 2 ^ 31 then some (-(n : Int)) else none
      else if c = '+' then
        (parseDigits rest).bind fun n =>
          if (n : Int) < 2 ^ 31 then some (n : Int) else none
      else
        (parseDigits (c :: rest)).bind fun n =>
          if (n : Int) < 2 ^ 31 then some (n : Int) else none) := rfl

theorem SimpleAtoi_intRepr (i : Int) (h1 : -(2 ^ 31) ≤ i) (h2 : i < 2 ^ 31) :
    SimpleAtoi (intRepr i) = some i := by
  rcases lt_or_ge i 0 with hneg | hpos
  · have hrep : intRepr i = ('-' :: natDigits i.natAbs).asString := by
      unfold intRepr
      rw [if_pos hneg]
    rw [hrep, SimpleAtoi_cons, if_pos rfl, parseDigits_natDigits,
      Option.some_bind, if_pos (by omega : (i.natAbs : Int) ≤ 2 ^ 31)]
    congr 1
    omega
  · have hrep : intRepr i = (natDigits i.toNat).asString := by
      unfold intRepr
      rw [if_neg (by omega)]
    rw [hrep]
    cases hd : natDigits i.toNat with
    | nil => exact absurd hd (natDigits_ne_nil _)
    | cons c cs =>
      have hsign := natDigits_head_not_sign i.toNat c cs hd
      rw [SimpleAtoi_cons, if_neg hsign.1, if_neg hsign.2, ← hd,
        parseDigits_natDigits, Option.some_bind,
        if_pos (by omega : (i.toNat : Int) < 2 ^ 31)]
      congr 1
      omega

theorem stripOnePrefix_eq_self {pre s : List Char}
    (h : ¬pre.isPrefixOf s) : stripOnePrefix pre s = s := by
  unfold stripOnePrefix
  rw [if_neg h]

theorem not_prefix_append_cons {pre file : List Char} {c : Char}
    (rest : List Char) (hc : c ∉ pre) (h : ¬pre.isPrefixOf file) :
    ¬pre.isPrefixOf (file ++ c :: rest) := by
  intro hp
  rw [List.isPrefixOf_iff_prefix] at hp h
  rcases le_or_lt pre.length file.length with hle | hlt
  · exact h (List.prefix_of_prefix_length_le hp (List.prefix_append file (c :: rest)) hle)
  · -- pre is longer than file, so pre must contain c at position file.length
    apply hc
    have hpre : pre = (file ++ c :: rest).take pre.length := List.prefix_iff_eq_take.mp hp
    rw [hpre, List.take_append_eq_append_take]
    refine List.mem_append_right _ ?_
    obtain ⟨k, hk⟩ : ∃ k, pre.length - file.length = k + 1 := ⟨pre.length - file.length - 1, by omega⟩
    rw [hk, List.take_succ_cons]
    exact List.mem_cons_self c _

theorem intRepr_not_mem {c : Char} (i : Int) (h1 : ¬c = '-')
    (h2 : ¬('0' ≤ c ∧ c ≤ '9')) : c ∉ (intRepr i).toList := by
  intro hc
  rcases intRepr_chars i c hc with h | h
  · exact h1 h
  · exact h2 h

theorem file_line_col_toList (e : Entry) :
    e.file_line_col.toList =
      e.file.toList ++
        ':' :: ((intRepr e.line).toList ++ ':' :: (intRepr e.col).toList) := by
  simp [Entry.file_line_col, toList_append]

theorem AddEntry_file_line_col (st : SymbolTable) (func : String) (e : Entry)
    (hq : '?' ∉ e.file.toList) (hcol : ':' ∉ e.file.toList)
    (hl1 : -(2 ^ 31) ≤ e.line) (hl2 : e.line < 2 ^ 31)
    (hc1 : -(2 ^ 31) ≤ e.col) (hc2 : e.col < 2 ^ 31) :
    st.AddEntry func e.file_line_col =
      some (st.AddEntryInternal func e.file e.line e.col) := by
  have hsplit : splitOnChar ':' e.file_line_col.toList =
      [e.file.toList, (intRepr e.line).toList, (intRepr e.col).toList] := by
    rw [file_line_col_toList, splitOnChar_append_cons _ _ hcol,
      splitOnChar_append_cons _ _ (intRepr_not_mem e.line (by decide) (by decide)),
      splitOnChar_of_not_mem (intRepr_not_mem e.col (by decide) (by decide))]
  have hq' : '?' ∉ e.file_line_col.toList := by
    rw [file_line_col_toList]
    simp only [List.mem_append, List.mem_cons, not_or]
    exact ⟨hq, by decide, intRepr_not_mem e.line (by decide) (by decide),
      by decide, intRepr_not_mem e.col (by decide) (by decide)⟩
  unfold SymbolTable.AddEntry
  rw [if_neg hq', hsplit]
  simp [SimpleAtoi_intRepr e.line hl1 hl2, SimpleAtoi_intRepr e.col hc1 hc2,
    List.getD, asString_toList, asString_data]

theorem stripFilePrefixes_id (e : Entry)
    (h1 : ¬List.isPrefixOf "/proc/self/cwd/".toList e.file.toList)
    (h2 : ¬List.isPrefixOf "./".toList e.file.toList) :
    stripFilePrefixes e.file_line_col = e.file_line_col := by
  unfold stripFilePrefixes
  rw [file_line_col_toList,
    stripOnePrefix_eq_self (not_prefix_append_cons _ (by decide) h1),
    stripOnePrefix_eq_self (not_prefix_append_cons _ (by decide) h2),
    ← file_line_col_toList, asString_toList]

theorem nil_asString : ([] : List Char).asString = "" := rfl

theorem stringJoin_toList (L : List String) :
    (String.join L).toList = (L.map String.toList).flatten := by
  have h : ∀ acc : String, (L.foldl (· ++ ·) acc).toList =
      acc.toList ++ (L.map String.toList).flatten := by
    induction L with
    | nil => intro acc; simp
    | cons s rest ih =>
      intro acc
      simp only [List.foldl_cons, ih, toList_append, List.map_cons,
        List.flatten_cons, List.append_assoc]
  show (L.foldl (· ++ ·) "").toList = _
  rw [h ""]
  rfl

theorem records_toList (st : SymbolTable) :
    st.WriteToLLVMSymbolizer.toList =
      (st.entries_.map fun e =>
        e.func.toList ++ '\n' :: (e.file_line_col.toList ++ ['\n', '\n'])).flatten := by
  unfold SymbolTable.WriteToLLVMSymbolizer
  rw [stringJoin_toList, List.map_map]
  refine congrArg List.flatten (List.map_congr_left fun e _ => ?_)
  simp [Function.comp, toList_append, String.toList]

theorem splitOnChar_cons_self (sep : Char) (ys : List Char) :
    splitOnChar sep (sep :: ys) = [] :: splitOnChar sep ys := by
  simp [splitOnChar]

theorem splitNewline_records (es : List Entry)
    (h : ∀ e ∈ es, '\n' ∉ e.func.toList ∧ '\n' ∉ e.file_line_col.toList) :
    splitOnChar '\n'
        ((es.map fun e =>
          e.func.toList ++ '\n' :: (e.file_line_col.toList ++ ['\n', '\n'])).flatten) =
      (es.flatMap fun e => [e.func.toList, e.file_line_col.toList, []]) ++ [[]] := by
  induction es with
  | nil => rfl
  | cons e es ih =>
    have he := h e (List.mem_cons_self e es)
    have hrest : ∀ x ∈ es, '\n' ∉ x.func.toList ∧ '\n' ∉ x.file_line_col.toList :=
      fun x hx => h x (List.mem_cons_of_mem e hx)
    simp only [List.map_cons, List.flatten_cons, List.flatMap_cons,
      List.append_assoc, List.cons_append, List.nil_append]
    rw [splitOnChar_append_cons _ _ he.1, splitOnChar_append_cons _ _ he.2,
      splitOnChar_cons_self, ih hrest]

theorem writer_ne_empty (st : SymbolTable) (e : Entry) (rest : List Entry)
    (hes : st.entries_ = e :: rest) : ¬st.WriteToLLVMSymbolizer = "" := by
  intro hempty
  have h1 : st.WriteToLLVMSymbolizer.toList = [] := by rw [hempty]; rfl
  rw [records_toList, hes] at h1
  simp at h1

theorem getlineAll_writer (st : SymbolTable)
    (h : ∀ e ∈ st.entries_, '\n' ∉ e.func.toList ∧ '\n' ∉ e.file_line_col.toList) :
    getlineAll st.WriteToLLVMSymbolizer =
      st.entries_.flatMap fun e => [e.func, e.file_line_col, ""] := by
  cases hes : st.entries_ with
  | nil =>
    have hW : st.WriteToLLVMSymbolizer = "" := by
      unfold SymbolTable.WriteToLLVMSymbolizer
      rw [hes]
      rfl
    rw [hW]
    rfl
  | cons e rest =>
    unfold getlineAll
    rw [if_neg (writer_ne_empty st e rest hes), records_toList,
      splitNewline_records st.entries_ h]
    rw [List.getLast?_concat, List.dropLast_concat]
    rw [if_pos rfl]
    rw [List.map_flatMap]
    simp [asString_data, hes, nil_asString]

theorem read_records (es : List Entry) : ∀ st : SymbolTable,
    (∀ e ∈ es,
      '\n' ∉ e.func.toList ∧ '\n' ∉ e.file.toList ∧
      ':' ∉ e.file.toList ∧ '?' ∉ e.file.toList ∧
      ¬List.isPrefixOf "/proc/self/cwd/".toList e.file.toList ∧
      ¬List.isPrefixOf "./".toList e.file.toList ∧
      -(2 ^ 31) ≤ e.line ∧ e.line < 2 ^ 31 ∧
      -(2 ^ 31) ≤ e.col ∧ e.col < 2 ^ 31) →
    (st.ReadFromLLVMSymbolizer
        (es.flatMap fun e => [e.func, e.file_line_col, ""])).map
      SymbolTable.entries_ = some (st.entries_ ++ es) := by
  induction es with
  | nil =>
    intro st _
    simp [SymbolTable.ReadFromLLVMSymbolizer]
  | cons e es ih =>
    intro st h
    obtain ⟨hfn, hfln, hcol, hq, hp1, hp2, hl1, hl2, hc1, hc2⟩ :=
      h e (List.mem_cons_self e es)
    have heta : (⟨e.func, e.file, e.line, e.col⟩ : Entry) = e := rfl
    simp only [List.flatMap_cons, List.cons_append, List.nil_append]
    rw [ReadFromLLVMSymbolizer_cons, stripFilePrefixes_id e hp1 hp2,
      AddEntry_file_line_col st e.func e hq hcol hl1 hl2 hc1 hc2,
      Option.some_bind, ih _ (fun x hx => h x (List.mem_cons_of_mem e hx)),
      AddEntryInternal_entries, heta]
    simp

/-- C6, counterexample to the claim as stated: the reader-reachable table
holding the single entry `{f, "./x", 1, 2}` (obtained by parsing the record
`f | ././x:1:2`, which strips one `"./"` prefix) contains no `"?"`-wildcard
entry, yet writing it and re-parsing yields `{f, "x", 1, 2}` — the reader
strips the remaining `"./"` prefix again, so the round trip is not the
identity. -/
theorem C6_roundtrip_counterexample :
    emptySymbolTable.ReadFromLLVMSymbolizer (getlineAll "f\n././x:1:2\n\n") =
      some ⟨[⟨"f", "./x", 1, 2⟩], ["f", "./x"]⟩ ∧
    (emptySymbolTable.ReadFromLLVMSymbolizer
        (getlineAll
          (SymbolTable.WriteToLLVMSymbolizer
            ⟨[⟨"f", "./x", 1, 2⟩], ["f", "./x"]⟩))).map
      SymbolTable.entries_ = some [⟨"f", "x", 1, 2⟩] ∧
    ([(⟨"f", "x", 1, 2⟩ : Entry)] : List Entry) ≠ [⟨"f", "./x", 1, 2⟩] :=
  ⟨rfl, rfl, by decide⟩

/-- C6, amended: writing a table with `WriteToLLVMSymbolizer` (whose location
line is `file:line:col` with line/col verbatim, per the spec's serialization
rule for the `file_line_col()` accessor of the missing header) and re-parsing
with `ReadFromLLVMSymbolizer` into a fresh table reproduces the original
entry sequence — table equality in the sense of `SymbolTable::operator==`,
which compares `entries_` only — provided every entry is a reconstructible
non-wildcard form: function and file contain no newline, the file contains
no `':'` and no `'?'` and does not start with a stripped path prefix
(`"/proc/self/cwd/"` or `"./"`), and line/col fit a 32-bit int.  Entries
produced from `"?"`-wildcard locations (and prefix-stripped or otherwise
non-reconstructible files, see the counterexample) are excluded. -/
theorem C6_roundtrip_amended (st : SymbolTable)
    (h : ∀ e ∈ st.entries_,
      '\n' ∉ e.func.toList ∧ '\n' ∉ e.file.toList ∧
      ':' ∉ e.file.toList ∧ '?' ∉ e.file.toList ∧
      ¬List.isPrefixOf "/proc/self/cwd/".toList e.file.toList ∧
      ¬List.isPrefixOf "./".toList e.file.toList ∧
      -(2 ^ 31) ≤ e.line ∧ e.line < 2 ^ 31 ∧
      -(2 ^ 31) ≤ e.col ∧ e.col < 2 ^ 31) :
    (emptySymbolTable.ReadFromLLVMSymbolizer
        (getlineAll st.WriteToLLVMSymbolizer)).map
      SymbolTable.entries_ = some st.entries_ := by
  have hnl : ∀ e ∈ st.entries_,
      '\n' ∉ e.func.toList ∧ '\n' ∉ e.file_line_col.toList := by
    intro e he
    obtain ⟨hfn, hfln, _, _, _, _, _, _, _, _⟩ := h e he
    refine ⟨hfn, ?_⟩
    rw [file_line_col_toList]
    simp only [List.mem_append, List.mem_cons, not_or]
    exact ⟨hfln, by decide, intRepr_not_mem e.line (by decide) (by decide),
      by decide, intRepr_not_mem e.col (by decide) (by decide)⟩
  rw [getlineAll_writer st hnl, read_records st.entries_ emptySymbolTable h]
  rfl

/-- C6 witness: a concrete two-entry table (including an absent line/col pair
written verbatim as `-1`) whose write–read round trip is the identity on
entries. -/
theorem C6_roundtrip_amended_witness :
    (emptySymbolTable.ReadFromLLVMSymbolizer
        (getlineAll
          (SymbolTable.WriteToLLVMSymbolizer
            ⟨[⟨"foo", "/src/a.c", 10, 3⟩, ⟨"main", "", -1, -1⟩],
              ["foo", "/src/a.c", "main", ""]⟩))).map
      SymbolTable.entries_ =
      some [⟨"foo", "/src/a.c", 10, 3⟩, ⟨"main", "", -1, -1⟩] :=
  C6_roundtrip_amended
    ⟨[⟨"foo", "/src/a.c", 10, 3⟩, ⟨"main", "", -1, -1⟩],
      ["foo", "/src/a.c", "main", ""]⟩
    (by decide)

end centipede
